import Mathlib

/-!
Verification development for `claude-code-changelog-rss` (`src/main.py`).

The repository turns a changelog document plus per-line git-blame attribution
ranges into a list of per-version records and projects them onto RSS feed
entries.  The development below is a shallow embedding of the three core
pieces of `main.py`:

* the line-attribution index built from blame ranges
  (`parse_changelog`, lines 103-112 of `main.py`);
* the version segmenter (`parse_changelog`, lines 114-162), including the
  header regex `^##\s+(\d+\.\d+\.\d+)`;
* the date sort (`main`, line 210) and the feed-entry projection
  (`generate_rss`, lines 164-192).

Python strings are embedded as `List Char`; the document is embedded as its
list of lines (`text.splitlines()` in the source produces exactly that list).
Python `dict` values built by sequential writes are embedded as functions
`Int → Option _` updated write-by-write, so the last write wins just as in
the source.  Python truthiness tests on optional strings (`if v['oid']:`)
are embedded by `pyTruthy`, which is false for `none` and for the empty
string.  The external collaborators (GitHub GraphQL transport, the `feedgen`
serializer, `datetime.fromisoformat`) are outside the embedding; the feed
entry records the exact string the code hands to `fromisoformat`.
-/

/-- The `{date, oid}` payload attached to each blame range
(`committedDate` / `oid` in `main.py` lines 108-109). -/
structure LineInfo where
  date : List Char
  oid : List Char
  deriving DecidableEq, Repr

/-- One blame range as returned by the GraphQL query: 1-based inclusive
`startingLine` / `endingLine` plus the commit payload.  The bounds are
embedded as `Int` so that the index construction is total over arbitrary
integer bounds, exactly as Python's `range` is. -/
structure BlameRange where
  startingLine : Int
  endingLine : Int
  commit : LineInfo
  deriving DecidableEq, Repr

/-- One iteration of the loop in `main.py` lines 104-112: write
`r.commit` into every key of `range(r.startingLine - 1, r.endingLine)`.
Writing a whole iteration at once into the function-embedded dict is
extensionally the same as the per-key writes of the source loop. -/
def writeRange (m : Int → Option LineInfo) (r : BlameRange) : Int → Option LineInfo :=
  fun i => if r.startingLine - 1 ≤ i ∧ i < r.endingLine then some r.commit else m i

/-- The `line_data_map` dict of `main.py` lines 103-112: iterate the blame
ranges in order, each overwriting earlier writes on overlap. -/
def buildLineDataMap (ranges : List BlameRange) : Int → Option LineInfo :=
  ranges.foldl writeRange (fun _ => none)

/-- Shift a list of blame ranges down the document by `n` lines (used to
state that a discarded document prefix contributes nothing). -/
def shiftRanges (n : Nat) (ranges : List BlameRange) : List BlameRange :=
  ranges.map fun r => { r with startingLine := r.startingLine + n, endingLine := r.endingLine + n }

/-- The range-covering test: position `i` lies in the zero-based converted
span `[startingLine - 1, endingLine)` of the range. -/
def coversAt (i : Int) (r : BlameRange) : Bool :=
  decide (r.startingLine - 1 ≤ i ∧ i < r.endingLine)

/-- Python's regex class `\s` restricted to the ASCII range: the characters
`' '`, `'\t'`, `'\n'`, `'\r'`, `'\x0b'`, `'\x0c'`.  (Python's `\s` on `str`
additionally matches a handful of non-ASCII Unicode whitespace code points;
none of the claims hinge on those.) -/
def pySpace (c : Char) : Bool :=
  c = ' ' || c = '\t' || c = '\n' || c = '\r' || c = '\x0b' || c = '\x0c'

/-- The `(\d+\.\d+\.\d+)` capture group of the header regex, matched at the
start of `s`: greedy digit runs separated by literal dots.  Greedy scanning
without backtracking coincides with the regex semantics here because the
character classes `\d`, `\.` and `\s` are pairwise disjoint.  Returns the
captured group (`version_match.group(1)` in `main.py` line 138). -/
def matchVersionNum (s : List Char) : Option (List Char) :=
  let d1 := s.takeWhile Char.isDigit
  if d1.isEmpty then none else
  match s.dropWhile Char.isDigit with
  | c1 :: r2 =>
    if c1 = '.' then
      let d2 := r2.takeWhile Char.isDigit
      if d2.isEmpty then none else
      match r2.dropWhile Char.isDigit with
      | c2 :: r4 =>
        if c2 = '.' then
          let d3 := r4.takeWhile Char.isDigit
          if d3.isEmpty then none else some (d1 ++ '.' :: (d2 ++ '.' :: d3))
        else none
      | [] => none
    else none
  | [] => none

/-- `re.match(r"^##\s+(\d+\.\d+\.\d+)", line)` of `main.py` line 125:
anchored at the start of the line, `##`, one or more `\s`, then the
version group.  Returns the captured group on success. -/
def versionMatch (line : List Char) : Option (List Char) :=
  match line with
  | c1 :: c2 :: rest =>
    if c1 = '#' ∧ c2 = '#' then
      if (rest.takeWhile pySpace).isEmpty then none
      else matchVersionNum (rest.dropWhile pySpace)
    else none
  | _ => none

/-- Python `str.strip()` (with the same ASCII whitespace class):
drop whitespace from both ends. -/
def pyStrip (l : List Char) : List Char :=
  ((l.dropWhile pySpace).reverse.dropWhile pySpace).reverse

/-- Python `"\n".join(lines)`. -/
def joinNL (ls : List (List Char)) : List Char :=
  List.intercalate ['\n'] ls

/-- Python truthiness of an optional string: `None` and `""` are falsy,
everything else is truthy. -/
def pyTruthy : Option (List Char) → Bool
  | none => false
  | some s => !s.isEmpty

/-- One parsed changelog version (`main.py` lines 130-135): the matched
version group, the blame attribution of the header line (absent when no
range covers it), and the stripped newline-joined body text. -/
structure VersionRecord where
  version : List Char
  date : Option (List Char)
  oid : Option (List Char)
  description : List Char
  deriving DecidableEq, Repr

/-- The loop state of `parse_changelog` (`main.py` lines 114-122):
accumulated result list plus the `current_*` variables. -/
structure ParseState where
  versions : List VersionRecord
  current_version : Option (List Char)
  current_desc : List (List Char)
  current_date : Option (List Char)
  current_oid : Option (List Char)
  deriving Repr

/-- The state before the loop: `versions = []`, all `current_*` unset. -/
def initState : ParseState := ⟨[], none, [], none, none⟩

/-- Finalizing the record under construction (`main.py` lines 130-135 and
155-160): join the accumulated description lines with newlines and strip. -/
def mkRecord (st : ParseState) : VersionRecord :=
  { version := st.current_version.getD []
    date := st.current_date
    oid := st.current_oid
    description := pyStrip (joinNL st.current_desc) }

/-- One iteration of the `for i, line in enumerate(lines)` loop
(`main.py` lines 124-151).  On a header line: flush the current record if
one is truthy, then restart with the matched group and the attribution
lookup at the header's position.  On a non-header line: append it to the
current description when a version is active, discard it otherwise. -/
def parseStep (m : Int → Option LineInfo) (st : ParseState) (p : Nat × List Char) : ParseState :=
  match versionMatch p.2 with
  | some v =>
    let versions' := if pyTruthy st.current_version then st.versions ++ [mkRecord st] else st.versions
    match m p.1 with
    | some info => ⟨versions', some v, [], some info.date, some info.oid⟩
    | none => ⟨versions', some v, [], none, none⟩
  | none =>
    if pyTruthy st.current_version then
      { st with current_desc := st.current_desc ++ [p.2] }
    else st

/-- The segmenter loop run from an arbitrary state over enumerated lines. -/
def runFrom (m : Int → Option LineInfo) (st : ParseState) (ps : List (Nat × List Char)) : ParseState :=
  ps.foldl (parseStep m) st

/-- The trailing `if current_version: versions.append(...)` of
`main.py` lines 154-160. -/
def pyFinalize (st : ParseState) : List VersionRecord :=
  if pyTruthy st.current_version then st.versions ++ [mkRecord st] else st.versions

/-- `parse_changelog` (`main.py` lines 91-162), with the document given as
its list of lines (`text.splitlines()`) and the blame ranges as fetched. -/
def parse_changelog (lines : List (List Char)) (blame_ranges : List BlameRange) :
    List VersionRecord :=
  pyFinalize (runFrom (buildLineDataMap blame_ranges) initState lines.enum)

/-- A line (paired with its position) that the header regex does not match. -/
def nonHeader (p : Nat × List Char) : Bool :=
  (versionMatch p.2).isNone

/-- Declarative reference segmentation: the list of version headers of the
enumerated document together with, for each header, the body lines up to
(exclusive) the next header.  Each entry is `((position, group), body)`. -/
def segRef : List (Nat × List Char) → List ((Nat × List Char) × List (List Char))
  | [] => []
  | p :: ps =>
    match versionMatch p.2 with
    | some v => ((p.1, v), (ps.takeWhile nonHeader).map (·.2)) :: segRef (ps.dropWhile nonHeader)
    | none => segRef ps
termination_by l => l.length
decreasing_by
  · simpa using Nat.lt_succ_of_le (List.dropWhile_sublist nonHeader).length_le
  · simp

/-- The record a `segRef` entry denotes: the matched group, the attribution
lookup at the header position, the stripped joined body. -/
def recOf (m : Int → Option LineInfo) (s : (Nat × List Char) × List (List Char)) : VersionRecord :=
  { version := s.1.2
    date := (m s.1.1).map (·.date)
    oid := (m s.1.1).map (·.oid)
    description := pyStrip (joinNL s.2) }

/-- The sort key of `main.py` line 210: `x['date'] or ""` — the date string,
with `None` (and the falsy empty string) replaced by the empty string. -/
def sortKey (r : VersionRecord) : List Char :=
  match r.date with
  | none => []
  | some d => d

/-- Lexicographic `≤` on strings by code point — Python's `str` order,
used implicitly by `list.sort(key=...)`. -/
def strLe : List Char → List Char → Bool
  | [], _ => true
  | _ :: _, [] => false
  | a :: as, b :: bs =>
    if a.toNat < b.toNat then true
    else if b.toNat < a.toNat then false
    else strLe as bs

/-- Lexicographic strict `<` on strings by code point. -/
def strLt : List Char → List Char → Bool
  | [], [] => false
  | [], _ :: _ => true
  | _ :: _, [] => false
  | a :: as, b :: bs =>
    if a.toNat < b.toNat then true
    else if b.toNat < a.toNat then false
    else strLt as bs

/-- Stable insertion into a date-sorted list: walk past records whose key is
strictly smaller, so an inserted record lands before every record of equal
key that was inserted earlier. -/
def insertByDate (x : VersionRecord) : List VersionRecord → List VersionRecord
  | [] => [x]
  | y :: ys =>
    if strLt (sortKey y) (sortKey x) then y :: insertByDate x ys
    else x :: y :: ys

/-- `versions.sort(key=lambda x: x['date'] or "")` of `main.py` line 210.
Python's `list.sort` is a stable ascending sort by the key; any stable sort
is extensionally determined by that contract, and this insertion sort is
stable (`insertByDate` keeps earlier-inserted records of equal key behind
the record being inserted, i.e. original order is preserved). -/
def pySortByDate : List VersionRecord → List VersionRecord
  | [] => []
  | x :: xs => insertByDate x (pySortByDate xs)

/-- The commit-pinned permalink of `main.py` line 178:
`https://github.com/{owner}/{repo}/blob/{oid}/{path}`. -/
def commitLinkUrl (oid : List Char) : List Char :=
  "https://github.com/anthropics/claude-code/blob/".toList ++ oid ++ "/CHANGELOG.md".toList

/-- The fallback release-tag link of `main.py` line 181:
`https://github.com/{owner}/{repo}/releases/tag/v{version}`. -/
def fallbackLinkUrl (version : List Char) : List Char :=
  "https://github.com/anthropics/claude-code/releases/tag/v".toList ++ version

/-- `s.replace("Z", "+00:00")` of `main.py` line 191 — the pattern is the
single character `'Z'`, so Python's replace-all is a per-character flat map. -/
def pyReplaceZ (l : List Char) : List Char :=
  l.flatMap fun c => if c = 'Z' then "+00:00".toList else [c]

/-- One RSS item as assembled by `generate_rss` (`main.py` lines 172-192).
`pubDate` holds the exact string handed to `datetime.fromisoformat`
(the serialization of the resulting timestamp by `feedgen` is external). -/
structure FeedEntry where
  title : List Char
  link : List Char
  description : List Char
  guid : List Char
  guidIsPermalink : Bool
  pubDate : Option (List Char)
  deriving DecidableEq, Repr

/-- The per-record body of the loop in `generate_rss` (`main.py` lines
172-192): title `v{version}`; commit-pinned link when the oid is truthy and
the release-tag fallback otherwise; the guid equal to the link and flagged
as a permalink; and a pubDate only when the date is truthy. -/
def feedEntryOf (v : VersionRecord) : FeedEntry :=
  let link := if pyTruthy v.oid then commitLinkUrl (v.oid.getD []) else fallbackLinkUrl v.version
  { title := 'v' :: v.version
    link := link
    description := v.description
    guid := link
    guidIsPermalink := true
    pubDate := if pyTruthy v.date then some (pyReplaceZ (v.date.getD [])) else none }

/-- `generate_rss` (`main.py` lines 164-198) restricted to its entry list;
the feed-level metadata and the XML serialization live in `feedgen`. -/
def generate_rss (versions : List VersionRecord) : List FeedEntry :=
  versions.map feedEntryOf

/-- A string of the shape `\d+\.\d+\.\d+`: three nonempty digit runs
separated by literal dots. -/
def versionShape (v : List Char) : Prop :=
  ∃ d1 d2 d3, v = d1 ++ '.' :: (d2 ++ '.' :: d3) ∧
    d1 ≠ [] ∧ d2 ≠ [] ∧ d3 ≠ [] ∧
    d1.all Char.isDigit ∧ d2.all Char.isDigit ∧ d3.all Char.isDigit

/-- The spec's wording of the header pattern, parameterized by the class of
characters allowed between `##` and the version number: the line is exactly
`##`, a nonempty run from `spaceClass`, a `\d+\.\d+\.\d+` group, and
arbitrary trailing text. -/
def isHeaderPattern (spaceClass : Char → Bool) (line : List Char) : Prop :=
  ∃ ws v rest, line = '#' :: '#' :: (ws ++ (v ++ rest)) ∧
    ws ≠ [] ∧ ws.all spaceClass ∧ versionShape v

/-! ### List helper lemmas -/

theorem takeWhile_append_all {α : Type} {p : α → Bool} {a : List α} (b : List α)
    (h : ∀ c ∈ a, p c = true) : (a ++ b).takeWhile p = a ++ b.takeWhile p := by
  induction a with
  | nil => simp
  | cons x xs ih =>
    simp only [List.cons_append, List.takeWhile_cons, h x (List.mem_cons_self x xs), if_pos]
    rw [ih fun c hc => h c (List.mem_cons_of_mem x hc)]

theorem dropWhile_append_all {α : Type} {p : α → Bool} {a : List α} (b : List α)
    (h : ∀ c ∈ a, p c = true) : (a ++ b).dropWhile p = b.dropWhile p := by
  induction a with
  | nil => simp
  | cons x xs ih =>
    simp only [List.cons_append, List.dropWhile_cons, h x (List.mem_cons_self x xs), if_pos]
    exact ih fun c hc => h c (List.mem_cons_of_mem x hc)

theorem takeWhile_append_stop {α : Type} {p : α → Bool} {y : α} (xs ys : List α)
    (h : p y = false) : (xs ++ y :: ys).takeWhile p = xs.takeWhile p := by
  induction xs with
  | nil => simp [List.takeWhile_cons, h]
  | cons x l ih =>
    by_cases hx : p x <;> simp [List.takeWhile_cons, hx, ih]

theorem dropWhile_append_stop {α : Type} {p : α → Bool} {y : α} (xs ys : List α)
    (h : p y = false) : (xs ++ y :: ys).dropWhile p = xs.dropWhile p ++ y :: ys := by
  induction xs with
  | nil => simp [List.dropWhile_cons, h]
  | cons x l ih =>
    by_cases hx : p x <;> simp [List.dropWhile_cons, hx, ih]

theorem digit_not_pySpace {c : Char} (h : c.isDigit = true) : pySpace c = false := by
  cases hp : pySpace c
  · rfl
  · exfalso
    simp only [pySpace, Bool.or_eq_true, decide_eq_true_eq] at hp
    rcases hp with ((((hp | hp) | hp) | hp) | hp) | hp <;> subst hp <;>
      exact absurd h (by decide)

/-! ### Facts about the header matcher -/

theorem matchVersionNum_eq_some {s v : List Char} (h : matchVersionNum s = some v) :
    ∃ d1 d2 d3 rest,
      s = d1 ++ '.' :: (d2 ++ '.' :: (d3 ++ rest)) ∧
      v = d1 ++ '.' :: (d2 ++ '.' :: d3) ∧
      d1 ≠ [] ∧ d2 ≠ [] ∧ d3 ≠ [] ∧
      d1.all Char.isDigit ∧ d2.all Char.isDigit ∧ d3.all Char.isDigit := by
  simp only [matchVersionNum] at h
  by_cases h1 : (s.takeWhile Char.isDigit).isEmpty
  · rw [if_pos h1] at h; exact absurd h (by simp)
  · rw [if_neg h1] at h
    rcases hd : s.dropWhile Char.isDigit with _ | ⟨c1, r2⟩ <;> simp only [hd] at h
    · exact Option.noConfusion h
    by_cases hc1 : c1 = '.'
    swap
    · rw [if_neg hc1] at h; exact Option.noConfusion h
    rw [if_pos hc1] at h
    by_cases h2 : (r2.takeWhile Char.isDigit).isEmpty
    · rw [if_pos h2] at h; exact Option.noConfusion h
    rw [if_neg h2] at h
    rcases hd2 : r2.dropWhile Char.isDigit with _ | ⟨c2, r4⟩ <;> simp only [hd2] at h
    · exact Option.noConfusion h
    by_cases hc2 : c2 = '.'
    swap
    · rw [if_neg hc2] at h; exact Option.noConfusion h
    rw [if_pos hc2] at h
    by_cases h3 : (r4.takeWhile Char.isDigit).isEmpty
    · rw [if_pos h3] at h; exact absurd h (by simp)
    rw [if_neg h3] at h
    refine ⟨s.takeWhile Char.isDigit, r2.takeWhile Char.isDigit, r4.takeWhile Char.isDigit,
      r4.dropWhile Char.isDigit, ?_, ?_, ?_, ?_, ?_, ?_, ?_, ?_⟩
    · conv_lhs => rw [← List.takeWhile_append_dropWhile Char.isDigit s, hd, hc1]
      congr 1
      conv_lhs => rw [← List.takeWhile_append_dropWhile Char.isDigit r2, hd2, hc2]
      simp
    · simp only [Option.some.injEq] at h
      exact h.symm
    · exact List.isEmpty_eq_false.mp (Bool.eq_false_iff.mpr h1)
    · exact List.isEmpty_eq_false.mp (Bool.eq_false_iff.mpr h2)
    · exact List.isEmpty_eq_false.mp (Bool.eq_false_iff.mpr h3)
    · exact List.all_eq_true.mpr fun c hc => List.mem_takeWhile_imp hc
    · exact List.all_eq_true.mpr fun c hc => List.mem_takeWhile_imp hc
    · exact List.all_eq_true.mpr fun c hc => List.mem_takeWhile_imp hc

theorem matchVersionNum_shape_isSome {d1 d2 d3 : List Char} (rest : List Char)
    (h1 : d1 ≠ []) (h2 : d2 ≠ []) (h3 : d3 ≠ [])
    (a1 : d1.all Char.isDigit = true) (a2 : d2.all Char.isDigit = true)
    (a3 : d3.all Char.isDigit = true) :
    (matchVersionNum (d1 ++ '.' :: (d2 ++ '.' :: (d3 ++ rest)))).isSome = true := by
  obtain ⟨c, d3', rfl⟩ : ∃ c d3', d3 = c :: d3' := by
    cases d3 with
    | nil => exact absurd rfl h3
    | cons c d3' => exact ⟨c, d3', rfl⟩
  have ha1 := List.all_eq_true.mp a1
  have ha2 := List.all_eq_true.mp a2
  have ha3 := List.all_eq_true.mp a3
  have hdot : Char.isDigit '.' = false := by decide
  have hc : Char.isDigit c = true := ha3 c (List.mem_cons_self c d3')
  have ht1 : (d1 ++ '.' :: (d2 ++ '.' :: (c :: (d3' ++ rest)))).takeWhile Char.isDigit = d1 := by
    rw [takeWhile_append_all _ ha1, List.takeWhile_cons, hdot]
    simp
  have hd1 : (d1 ++ '.' :: (d2 ++ '.' :: (c :: (d3' ++ rest)))).dropWhile Char.isDigit
      = '.' :: (d2 ++ '.' :: (c :: (d3' ++ rest))) := by
    rw [dropWhile_append_all _ ha1, List.dropWhile_cons]
    simp [hdot]
  have ht2 : (d2 ++ '.' :: (c :: (d3' ++ rest))).takeWhile Char.isDigit = d2 := by
    rw [takeWhile_append_all _ ha2, List.takeWhile_cons, hdot]
    simp
  have hd2 : (d2 ++ '.' :: (c :: (d3' ++ rest))).dropWhile Char.isDigit
      = '.' :: (c :: (d3' ++ rest)) := by
    rw [dropWhile_append_all _ ha2, List.dropWhile_cons]
    simp [hdot]
  have ht3 : (c :: (d3' ++ rest)).takeWhile Char.isDigit
      = c :: (d3' ++ rest).takeWhile Char.isDigit := by
    rw [List.takeWhile_cons, hc]
    simp
  simp only [List.cons_append]
  simp only [matchVersionNum, ht1, hd1, ht2, hd2, ht3, List.isEmpty_eq_false.mpr h1,
    List.isEmpty_eq_false.mpr h2, List.isEmpty_cons, Bool.false_eq_true, if_false]
  simp

theorem versionMatch_eq_some {l v : List Char} (h : versionMatch l = some v) :
    ∃ ws rest, l = '#' :: '#' :: (ws ++ (v ++ rest)) ∧
      ws ≠ [] ∧ ws.all pySpace = true ∧ versionShape v := by
  rcases l with _ | ⟨c1, l'⟩
  · exact Option.noConfusion h
  rcases l' with _ | ⟨c2, rest0⟩
  · exact Option.noConfusion h
  simp only [versionMatch] at h
  by_cases hc : c1 = '#' ∧ c2 = '#'
  swap
  · rw [if_neg hc] at h; exact Option.noConfusion h
  rw [if_pos hc] at h
  by_cases hws : (rest0.takeWhile pySpace).isEmpty
  · rw [if_pos hws] at h; exact Option.noConfusion h
  rw [if_neg hws] at h
  obtain ⟨d1, d2, d3, rest, hs, hv, h1, h2, h3, a1, a2, a3⟩ := matchVersionNum_eq_some h
  obtain ⟨rfl, rfl⟩ := hc
  subst hv
  refine ⟨rest0.takeWhile pySpace, rest, ?_,
    List.isEmpty_eq_false.mp (Bool.eq_false_iff.mpr hws),
    List.all_eq_true.mpr fun c hc => List.mem_takeWhile_imp hc,
    d1, d2, d3, rfl, h1, h2, h3, a1, a2, a3⟩
  have hr : rest0 = rest0.takeWhile pySpace ++ ((d1 ++ '.' :: (d2 ++ '.' :: d3)) ++ rest) := by
    conv_lhs => rw [← List.takeWhile_append_dropWhile pySpace rest0, hs]
    simp
  conv_lhs => rw [hr]

theorem versionMatch_isSome_of_pattern {l : List Char} (h : isHeaderPattern pySpace l) :
    (versionMatch l).isSome = true := by
  obtain ⟨ws, v, rest, rfl, hws, hall, d1, d2, d3, rfl, h1, h2, h3, a1, a2, a3⟩ := h
  obtain ⟨c, d1', rfl⟩ : ∃ c d1', d1 = c :: d1' := by
    cases d1 with
    | nil => exact absurd rfl h1
    | cons c d1' => exact ⟨c, d1', rfl⟩
  have hc : Char.isDigit c = true := List.all_eq_true.mp a1 c (List.mem_cons_self c d1')
  have hcsp : pySpace c = false := digit_not_pySpace hc
  have hallws := List.all_eq_true.mp hall
  have htws : (ws ++ (c :: (d1' ++ '.' :: (d2 ++ '.' :: (d3 ++ rest))))).takeWhile pySpace = ws := by
    rw [takeWhile_append_all _ hallws, List.takeWhile_cons, hcsp]
    simp
  have hdws : (ws ++ (c :: (d1' ++ '.' :: (d2 ++ '.' :: (d3 ++ rest))))).dropWhile pySpace
      = c :: (d1' ++ '.' :: (d2 ++ '.' :: (d3 ++ rest))) := by
    rw [dropWhile_append_all _ hallws, List.dropWhile_cons]
    simp [hcsp]
  have hmv : (matchVersionNum (c :: (d1' ++ '.' :: (d2 ++ '.' :: (d3 ++ rest))))).isSome = true := by
    have hform := matchVersionNum_shape_isSome rest h1 h2 h3 a1 a2 a3
    simpa using hform
  simp only [List.append_assoc, List.cons_append]
  simp only [versionMatch]
  rw [htws, hdws]
  simp [List.isEmpty_eq_false.mpr hws, hmv]

theorem versionMatch_isSome_iff_pattern (l : List Char) :
    (versionMatch l).isSome = true ↔ isHeaderPattern pySpace l := by
  constructor
  · intro h
    obtain ⟨v, hv⟩ := Option.isSome_iff_exists.mp h
    obtain ⟨ws, rest, hl, hws, hall, hshape⟩ := versionMatch_eq_some hv
    exact ⟨ws, v, rest, hl, hws, hall, hshape⟩
  · exact versionMatch_isSome_of_pattern

theorem versionMatch_group_ne_nil {l v : List Char} (h : versionMatch l = some v) : v ≠ [] := by
  obtain ⟨_, _, _, _, _, d1, d2, d3, hv, _⟩ := versionMatch_eq_some h
  subst hv
  cases d1 <;> simp

/-! ### Facts about the line-attribution index -/

theorem foldl_writeRange_or (ranges : List BlameRange) :
    ∀ (m : Int → Option LineInfo) (i : Int),
      ranges.foldl writeRange m i =
        (((ranges.reverse.find? (coversAt i)).map (·.commit)).or (m i)) := by
  induction ranges with
  | nil => intro m i; simp
  | cons r rs ih =>
    intro m i
    simp only [List.foldl_cons, List.reverse_cons]
    rw [ih, List.find?_append]
    cases hf : rs.reverse.find? (coversAt i) with
    | some r' => simp
    | none =>
      simp only [Option.map_none, Option.none_or, List.find?_cons, List.find?_nil]
      by_cases hcov : r.startingLine - 1 ≤ i ∧ i < r.endingLine
      · have hc : coversAt i r = true := decide_eq_true hcov
        rw [hc]
        show writeRange m r i = some r.commit
        simp only [writeRange]
        rw [if_pos hcov]
      · have hc : coversAt i r = false := decide_eq_false hcov
        rw [hc]
        show writeRange m r i = m i
        simp only [writeRange]
        rw [if_neg hcov]

theorem buildLineDataMap_eq_find (ranges : List BlameRange) (i : Int) :
    buildLineDataMap ranges i = (ranges.reverse.find? (coversAt i)).map (·.commit) := by
  rw [buildLineDataMap, foldl_writeRange_or]
  simp

theorem coversAt_degenerate {r : BlameRange} (h : r.endingLine < r.startingLine) (i : Int) :
    coversAt i r = false := by
  apply decide_eq_false
  omega

theorem buildLineDataMap_shift (n : Nat) (ranges : List BlameRange) (i : Int) :
    buildLineDataMap (shiftRanges n ranges) i = buildLineDataMap ranges (i - n) := by
  rw [buildLineDataMap_eq_find, buildLineDataMap_eq_find, shiftRanges, ← List.map_reverse,
    List.find?_map]
  have hp : (coversAt i ∘ fun r : BlameRange =>
      { r with startingLine := r.startingLine + n, endingLine := r.endingLine + n })
      = coversAt (i - n) := by
    funext r
    simp only [Function.comp_apply, coversAt]
    exact decide_eq_decide.mpr (by omega)
  rw [hp, Option.map_map]
  rfl

/-! ### The master characterization of the segmenter -/

theorem pyTruthy_some {v : List Char} (hv : v ≠ []) : pyTruthy (some v) = true := by
  simp [pyTruthy, List.isEmpty_eq_false.mpr hv]

theorem runFrom_inVersion (m : Int → Option LineInfo) (ps : List (Nat × List Char)) :
    ∀ (vs : List VersionRecord) (v : List Char) (ds : List (List Char))
      (dt doid : Option (List Char)), v ≠ [] →
      pyFinalize (runFrom m ⟨vs, some v, ds, dt, doid⟩ ps) =
        vs ++ ⟨v, dt, doid, pyStrip (joinNL (ds ++ (ps.takeWhile nonHeader).map (·.2)))⟩
          :: (segRef (ps.dropWhile nonHeader)).map (recOf m) := by
  induction ps with
  | nil =>
    intro vs v ds dt doid hv
    simp [runFrom, pyFinalize, pyTruthy_some hv, mkRecord, segRef]
  | cons p ps ih =>
    intro vs v ds dt doid hv
    cases hm : versionMatch p.2 with
    | none =>
      have hnh : nonHeader p = true := by simp [nonHeader, hm]
      have hstep : parseStep m ⟨vs, some v, ds, dt, doid⟩ p
          = ⟨vs, some v, ds ++ [p.2], dt, doid⟩ := by
        simp [parseStep, hm, pyTruthy_some hv]
      rw [runFrom, List.foldl_cons, hstep]
      have hrec := ih vs v (ds ++ [p.2]) dt doid hv
      rw [runFrom] at hrec
      rw [hrec]
      simp [List.takeWhile_cons, List.dropWhile_cons, hnh]
    | some w =>
      have hw : w ≠ [] := versionMatch_group_ne_nil hm
      have hnh : nonHeader p = false := by simp [nonHeader, hm]
      cases hm2 : m p.1 with
      | some info =>
        have hstep : parseStep m ⟨vs, some v, ds, dt, doid⟩ p
            = ⟨vs ++ [⟨v, dt, doid, pyStrip (joinNL ds)⟩], some w, [],
                some info.date, some info.oid⟩ := by
          simp [parseStep, hm, hm2, pyTruthy_some hv, mkRecord]
        rw [runFrom, List.foldl_cons, hstep]
        have hrec := ih (vs ++ [⟨v, dt, doid, pyStrip (joinNL ds)⟩]) w []
          (some info.date) (some info.oid) hw
        rw [runFrom] at hrec
        rw [hrec]
        rw [List.takeWhile_cons, List.dropWhile_cons]
        simp only [hnh, Bool.false_eq_true, if_false]
        simp [segRef, hm, recOf, hm2, joinNL]
      | none =>
        have hstep : parseStep m ⟨vs, some v, ds, dt, doid⟩ p
            = ⟨vs ++ [⟨v, dt, doid, pyStrip (joinNL ds)⟩], some w, [], none, none⟩ := by
          simp [parseStep, hm, hm2, pyTruthy_some hv, mkRecord]
        rw [runFrom, List.foldl_cons, hstep]
        have hrec := ih (vs ++ [⟨v, dt, doid, pyStrip (joinNL ds)⟩]) w [] none none hw
        rw [runFrom] at hrec
        rw [hrec]
        rw [List.takeWhile_cons, List.dropWhile_cons]
        simp only [hnh, Bool.false_eq_true, if_false]
        simp [segRef, hm, recOf, hm2, joinNL]

theorem runFrom_initial (m : Int → Option LineInfo) (ps : List (Nat × List Char)) :
    pyFinalize (runFrom m initState ps) = (segRef ps).map (recOf m) := by
  induction ps with
  | nil => simp [runFrom, pyFinalize, initState, pyTruthy, segRef]
  | cons p ps ih =>
    cases hm : versionMatch p.2 with
    | none =>
      have hstep : parseStep m initState p = initState := by
        simp [parseStep, hm, initState, pyTruthy]
      rw [runFrom, List.foldl_cons, hstep]
      have hrec := ih
      rw [runFrom] at hrec
      rw [hrec]
      simp [segRef, hm]
    | some w =>
      have hw : w ≠ [] := versionMatch_group_ne_nil hm
      cases hm2 : m p.1 with
      | some info =>
        have hstep : parseStep m initState p = ⟨[], some w, [], some info.date, some info.oid⟩ := by
          simp [parseStep, hm, hm2, initState, pyTruthy]
        rw [runFrom, List.foldl_cons, hstep]
        have hrec := runFrom_inVersion m ps [] w [] (some info.date) (some info.oid) hw
        rw [runFrom] at hrec
        rw [hrec]
        simp [segRef, hm, recOf, hm2, joinNL]
      | none =>
        have hstep : parseStep m initState p = ⟨[], some w, [], none, none⟩ := by
          simp [parseStep, hm, hm2, initState, pyTruthy]
        rw [runFrom, List.foldl_cons, hstep]
        have hrec := runFrom_inVersion m ps [] w [] none none hw
        rw [runFrom] at hrec
        rw [hrec]
        simp [segRef, hm, recOf, hm2, joinNL]

/-- Master theorem: `parse_changelog` computes exactly the reference
segmentation `segRef` of the enumerated lines, with each header's record
assembled by `recOf` from the attribution index. -/
theorem parse_changelog_eq_segRef (lines : List (List Char)) (ranges : List BlameRange) :
    parse_changelog lines ranges = (segRef lines.enum).map (recOf (buildLineDataMap ranges)) := by
  rw [parse_changelog]
  exact runFrom_initial _ _

/-! ### Structural lemmas about the reference segmentation -/

theorem nonHeader_eq_none {p : Nat × List Char} (h : nonHeader p = true) :
    versionMatch p.2 = none := by
  simpa [nonHeader, Option.isNone_iff_eq_none] using h

theorem nonHeader_false_of_some {p : Nat × List Char} {v : List Char}
    (h : versionMatch p.2 = some v) : nonHeader p = false := by
  simp [nonHeader, h]

theorem filter_header_takeWhile_nil (ps : List (Nat × List Char)) :
    ((ps.takeWhile nonHeader).filter fun q => (versionMatch q.2).isSome) = [] := by
  rw [List.filter_eq_nil_iff]
  intro a ha
  have hnh := List.mem_takeWhile_imp ha
  rw [nonHeader_eq_none hnh]
  simp

theorem filter_header_dropWhile (ps : List (Nat × List Char)) :
    (ps.filter fun q => (versionMatch q.2).isSome)
      = ((ps.dropWhile nonHeader).filter fun q => (versionMatch q.2).isSome) := by
  conv_lhs => rw [← List.takeWhile_append_dropWhile nonHeader ps]
  rw [List.filter_append, filter_header_takeWhile_nil, List.nil_append]

theorem segRef_length (ps : List (Nat × List Char)) :
    (segRef ps).length = (ps.filter fun q => (versionMatch q.2).isSome).length := by
  induction ps using segRef.induct with
  | case1 => simp [segRef]
  | case2 p ps v hm ih =>
    simp only [segRef, hm, List.length_cons, List.filter_cons]
    rw [filter_header_dropWhile ps]
    simp [hm, ih]
  | case3 p ps hm ih =>
    simp only [segRef, hm, List.filter_cons]
    simp [hm, ih]

theorem segRef_heads (ps : List (Nat × List Char)) :
    (segRef ps).map (fun s => s.1)
      = (ps.filter fun q => (versionMatch q.2).isSome).map
          (fun q => (q.1, (versionMatch q.2).getD [])) := by
  induction ps using segRef.induct with
  | case1 => simp [segRef]
  | case2 p ps v hm ih =>
    simp only [segRef, hm, List.map_cons, List.filter_cons]
    rw [filter_header_dropWhile ps]
    simp [hm, ih]
  | case3 p ps hm ih =>
    simp only [segRef, hm, List.filter_cons]
    simp [hm, ih]

theorem segRef_append_nonheader (a : List (Nat × List Char)) :
    ∀ (b : List (Nat × List Char)), (∀ p ∈ a, nonHeader p = true) →
      segRef (a ++ b) = segRef b := by
  induction a with
  | nil => intro b _; simp
  | cons p a ih =>
    intro b h
    have hm : versionMatch p.2 = none :=
      nonHeader_eq_none (h p (List.mem_cons_self p a))
    rw [List.cons_append]
    simp only [segRef, hm]
    exact ih b fun q hq => h q (List.mem_cons_of_mem p hq)

theorem segRef_cons_some {p : Nat × List Char} {v : List Char}
    (hm : versionMatch p.2 = some v) (ps : List (Nat × List Char)) :
    segRef (p :: ps)
      = ((p.1, v), (ps.takeWhile nonHeader).map (·.2)) :: segRef (ps.dropWhile nonHeader) := by
  simp only [segRef, hm]

theorem segRef_cons_none {p : Nat × List Char}
    (hm : versionMatch p.2 = none) (ps : List (Nat × List Char)) :
    segRef (p :: ps) = segRef ps := by
  simp only [segRef, hm]

theorem segRef_append_header (a : List (Nat × List Char)) :
    ∀ (i : Nat) (hl : List Char) (b : List (Nat × List Char)),
      (versionMatch hl).isSome = true →
      segRef (a ++ (i, hl) :: b) = segRef a ++ segRef ((i, hl) :: b) := by
  induction a using segRef.induct with
  | case1 => intro i hl b hh; simp [segRef]
  | case2 p ps v hm ih =>
    intro i hl b hh
    obtain ⟨w, hw⟩ := Option.isSome_iff_exists.mp hh
    have hnh : nonHeader (i, hl) = false := by simp [nonHeader, hw]
    rw [List.cons_append, segRef_cons_some hm, takeWhile_append_stop _ _ hnh,
      dropWhile_append_stop _ _ hnh, ih i hl b hh, segRef_cons_some hm]
    simp
  | case3 p ps hm ih =>
    intro i hl b hh
    rw [List.cons_append, segRef_cons_none hm, ih i hl b hh, segRef_cons_none hm]

/-! ### Shifting the document and the index together -/

theorem enumFrom_add_eq_map (n : Nat) (l : List (List Char)) :
    ∀ k, List.enumFrom (k + n) l = (List.enumFrom k l).map (fun p => (p.1 + n, p.2)) := by
  induction l with
  | nil => intro k; simp
  | cons x xs ih =>
    intro k
    rw [List.enumFrom_cons, List.enumFrom_cons, List.map_cons,
      show k + n + 1 = (k + 1) + n by omega, ih (k + 1)]

theorem enumFrom_eq_map_enum (n : Nat) (l : List (List Char)) :
    List.enumFrom n l = l.enum.map (fun p => (p.1 + n, p.2)) := by
  have h := enumFrom_add_eq_map n l 0
  simpa [List.enum] using h

theorem segRef_map_shift (n : Nat) (ps : List (Nat × List Char)) :
    segRef (ps.map (fun p => (p.1 + n, p.2)))
      = (segRef ps).map (fun s => ((s.1.1 + n, s.1.2), s.2)) := by
  have hcomp : nonHeader ∘ (fun p : Nat × List Char => (p.1 + n, p.2)) = nonHeader :=
    funext fun p => rfl
  have hsnd : (fun x : Nat × List Char => x.2) ∘ (fun p : Nat × List Char => (p.1 + n, p.2))
      = (fun x : Nat × List Char => x.2) :=
    funext fun p => rfl
  induction ps using segRef.induct with
  | case1 => simp [segRef]
  | case2 p ps v hm ih =>
    rw [List.map_cons, segRef_cons_some (p := (p.1 + n, p.2)) hm, segRef_cons_some hm,
      List.takeWhile_map, List.dropWhile_map, hcomp, ih, List.map_map, hsnd, List.map_cons]
  | case3 p ps hm ih =>
    rw [List.map_cons, segRef_cons_none (p := (p.1 + n, p.2)) hm, segRef_cons_none hm, ih]

/-! ### Stickiness of the segmenter state -/

theorem parseStep_current_version (m : Int → Option LineInfo) (st : ParseState)
    (p : Nat × List Char) :
    (parseStep m st p).current_version
      = match versionMatch p.2 with
        | some w => some w
        | none => st.current_version := by
  cases hm : versionMatch p.2 with
  | some w => cases hm2 : m p.1 <;> simp [parseStep, hm, hm2]
  | none => cases h : pyTruthy st.current_version <;> simp [parseStep, hm, h]

theorem runFrom_sticky (m : Int → Option LineInfo) (ps : List (Nat × List Char)) :
    ∀ st : ParseState, pyTruthy st.current_version = true →
      pyTruthy (runFrom m st ps).current_version = true := by
  induction ps with
  | nil => intro st h; exact h
  | cons p ps ih =>
    intro st h
    rw [runFrom, List.foldl_cons]
    have hnext : pyTruthy (parseStep m st p).current_version = true := by
      rw [parseStep_current_version]
      cases hm : versionMatch p.2 with
      | some w => exact pyTruthy_some (versionMatch_group_ne_nil hm)
      | none => exact h
    exact ih (parseStep m st p) hnext

/-- A discarded all-non-header prefix contributes nothing: parsing
`pre ++ rest` with the blame ranges shifted down by `pre.length` gives the
same records as parsing `rest` with the unshifted ranges. -/
theorem parse_changelog_discard_preamble (pre rest : List (List Char)) (ranges : List BlameRange)
    (h : ∀ l ∈ pre, versionMatch l = none) :
    parse_changelog (pre ++ rest) (shiftRanges pre.length ranges)
      = parse_changelog rest ranges := by
  rw [parse_changelog_eq_segRef, parse_changelog_eq_segRef, List.enum_append]
  rw [segRef_append_nonheader pre.enum _ ?hpre]
  case hpre =>
    intro p hp
    have h2 : p.2 ∈ pre := by
      rw [← List.enum_map_snd pre]
      exact List.mem_map_of_mem _ hp
    simp [nonHeader, h p.2 h2]
  rw [enumFrom_eq_map_enum, segRef_map_shift, List.map_map]
  congr 1
  funext s
  simp only [Function.comp_apply, recOf, buildLineDataMap_shift]
  have hcast : ((s.1.1 + pre.length : Nat) : Int) - (pre.length : Int) = (s.1.1 : Int) := by
    push_cast
    ring
  rw [hcast]

/-! ### Counting headers -/

theorem enumFrom_filter_header_length (lines : List (List Char)) :
    ∀ n : Nat, ((List.enumFrom n lines).filter fun q => (versionMatch q.2).isSome).length
      = (lines.filter fun l => (versionMatch l).isSome).length := by
  induction lines with
  | nil => intro n; simp
  | cons x xs ih =>
    intro n
    rw [List.enumFrom_cons, List.filter_cons, List.filter_cons]
    cases h : (versionMatch x).isSome <;> simp [h, ih]

/-! ### Facts about the date sort -/

theorem strLe_of_not_strLt : ∀ a b : List Char, strLt b a = false → strLe a b = true := by
  intro a
  induction a with
  | nil => intro b _; rfl
  | cons x xs ih =>
    intro b h
    cases b with
    | nil => simp [strLt] at h
    | cons y ys =>
      simp only [strLt] at h
      simp only [strLe]
      by_cases h1 : y.toNat < x.toNat
      · rw [if_pos h1] at h
        exact absurd h (by simp)
      · rw [if_neg h1] at h
        by_cases h2 : x.toNat < y.toNat
        · rw [if_pos h2]
        · rw [if_neg h2, if_neg h1]
          rw [if_neg h2] at h
          exact ih ys h

theorem strLe_of_strLt : ∀ a b : List Char, strLt a b = true → strLe a b = true := by
  intro a
  induction a with
  | nil => intro b _; rfl
  | cons x xs ih =>
    intro b h
    cases b with
    | nil => simp [strLt] at h
    | cons y ys =>
      simp only [strLt] at h
      simp only [strLe]
      by_cases h1 : x.toNat < y.toNat
      · rw [if_pos h1]
      · rw [if_neg h1] at h ⊢
        by_cases h2 : y.toNat < x.toNat
        · rw [if_pos h2] at h
          exact absurd h (by simp)
        · rw [if_neg h2] at h ⊢
          exact ih ys h

theorem strLe_trans : ∀ a b c : List Char, strLe a b = true → strLe b c = true →
    strLe a c = true := by
  intro a
  induction a with
  | nil => intro b c _ _; rfl
  | cons x xs ih =>
    intro b c hab hbc
    cases b with
    | nil => simp [strLe] at hab
    | cons y ys =>
      cases c with
      | nil => simp [strLe] at hbc
      | cons z zs =>
        simp only [strLe] at hab hbc ⊢
        by_cases hxy : x.toNat < y.toNat
        · by_cases hyz : y.toNat < z.toNat
          · rw [if_pos (by omega : x.toNat < z.toNat)]
          · rw [if_neg hyz] at hbc
            by_cases hzy : z.toNat < y.toNat
            · rw [if_pos hzy] at hbc
              exact absurd hbc (by simp)
            · rw [if_pos (by omega : x.toNat < z.toNat)]
        · rw [if_neg hxy] at hab
          by_cases hyx : y.toNat < x.toNat
          · rw [if_pos hyx] at hab
            exact absurd hab (by simp)
          · rw [if_neg hyx] at hab
            by_cases hyz : y.toNat < z.toNat
            · rw [if_pos (by omega : x.toNat < z.toNat)]
            · rw [if_neg hyz] at hbc
              by_cases hzy : z.toNat < y.toNat
              · rw [if_pos hzy] at hbc
                exact absurd hbc (by simp)
              · rw [if_neg hzy] at hbc
                rw [if_neg (by omega : ¬x.toNat < z.toNat), if_neg (by omega : ¬z.toNat < x.toNat)]
                exact ih ys zs hab hbc

theorem strLt_irrefl : ∀ a : List Char, strLt a a = false := by
  intro a
  induction a with
  | nil => rfl
  | cons x xs ih =>
    simp only [strLt]
    rw [if_neg (by omega : ¬x.toNat < x.toNat), if_neg (by omega : ¬x.toNat < x.toNat)]
    exact ih

theorem eq_nil_of_strLe_nil : ∀ a : List Char, strLe a [] = true → a = [] := by
  intro a h
  cases a with
  | nil => rfl
  | cons x xs => simp [strLe] at h

theorem mem_insertByDate {x r : VersionRecord} :
    ∀ l : List VersionRecord, r ∈ insertByDate x l → r = x ∨ r ∈ l := by
  intro l
  induction l with
  | nil =>
    intro h
    simp [insertByDate] at h
    exact Or.inl h
  | cons y ys ih =>
    intro h
    simp only [insertByDate] at h
    by_cases hlt : strLt (sortKey y) (sortKey x) = true
    · rw [if_pos hlt] at h
      rcases List.mem_cons.mp h with rfl | h
      · exact Or.inr (List.mem_cons_self _ _)
      · rcases ih h with rfl | h
        · exact Or.inl rfl
        · exact Or.inr (List.mem_cons_of_mem _ h)
    · rw [if_neg hlt] at h
      rcases List.mem_cons.mp h with rfl | h
      · exact Or.inl rfl
      · exact Or.inr h

theorem mem_pySortByDate {r : VersionRecord} :
    ∀ l : List VersionRecord, r ∈ pySortByDate l → r ∈ l := by
  intro l
  induction l with
  | nil => intro h; simp [pySortByDate] at h
  | cons x xs ih =>
    intro h
    simp only [pySortByDate] at h
    rcases mem_insertByDate _ h with rfl | h
    · exact List.mem_cons_self _ _
    · exact List.mem_cons_of_mem _ (ih h)

theorem insertByDate_pairwise {x : VersionRecord} :
    ∀ l : List VersionRecord,
      List.Pairwise (fun a b => strLe (sortKey a) (sortKey b) = true) l →
      List.Pairwise (fun a b => strLe (sortKey a) (sortKey b) = true) (insertByDate x l) := by
  intro l
  induction l with
  | nil => intro _; simp [insertByDate]
  | cons y ys ih =>
    intro h
    rcases List.pairwise_cons.mp h with ⟨hy, hys⟩
    simp only [insertByDate]
    by_cases hlt : strLt (sortKey y) (sortKey x) = true
    · rw [if_pos hlt]
      apply List.pairwise_cons.mpr
      refine ⟨?_, ih hys⟩
      intro r hr
      rcases mem_insertByDate _ hr with rfl | hr
      · exact strLe_of_strLt _ _ hlt
      · exact hy r hr
    · rw [if_neg hlt]
      apply List.pairwise_cons.mpr
      have hxy : strLe (sortKey x) (sortKey y) = true :=
        strLe_of_not_strLt _ _ (Bool.eq_false_iff.mpr hlt)
      refine ⟨?_, h⟩
      intro r hr
      rcases List.mem_cons.mp hr with rfl | hr
      · exact hxy
      · exact strLe_trans _ _ _ hxy (hy r hr)

theorem pySortByDate_pairwise (l : List VersionRecord) :
    List.Pairwise (fun a b => strLe (sortKey a) (sortKey b) = true) (pySortByDate l) := by
  induction l with
  | nil => simp [pySortByDate]
  | cons x xs ih =>
    simp only [pySortByDate]
    exact insertByDate_pairwise _ ih

theorem insertByDate_filter (x : VersionRecord) (k : List Char) :
    ∀ l : List VersionRecord,
      (insertByDate x l).filter (fun r => decide (sortKey r = k))
        = if sortKey x = k then x :: l.filter (fun r => decide (sortKey r = k))
          else l.filter (fun r => decide (sortKey r = k)) := by
  intro l
  induction l with
  | nil =>
    by_cases hx : sortKey x = k <;> simp [insertByDate, List.filter_cons, hx]
  | cons y ys ih =>
    simp only [insertByDate]
    by_cases hlt : strLt (sortKey y) (sortKey x) = true
    · rw [if_pos hlt]
      by_cases hx : sortKey x = k
      · by_cases hy : sortKey y = k
        · exfalso
          rw [hx, ← hy] at hlt
          rw [strLt_irrefl (sortKey y)] at hlt
          exact absurd hlt (by simp)
        · simp only [List.filter_cons, ih]
          rw [if_pos hx, if_pos hx]
          simp [hy]
      · simp only [List.filter_cons, ih]
        rw [if_neg hx, if_neg hx]
    · rw [if_neg hlt]
      by_cases hx : sortKey x = k <;> simp [List.filter_cons, hx]

theorem pySortByDate_filter (k : List Char) :
    ∀ l : List VersionRecord,
      (pySortByDate l).filter (fun r => decide (sortKey r = k))
        = l.filter (fun r => decide (sortKey r = k)) := by
  intro l
  induction l with
  | nil => rfl
  | cons x xs ih =>
    simp only [pySortByDate]
    rw [insertByDate_filter, ih]
    by_cases hx : sortKey x = k <;> simp [List.filter_cons, hx]

theorem pySortByDate_absent_first (vs : List VersionRecord)
    (h : ∀ r ∈ vs, r.date ≠ some ([] : List Char)) :
    List.Pairwise (fun a b => b.date = none → a.date = none) (pySortByDate vs) := by
  have hs := pySortByDate_pairwise vs
  apply List.Pairwise.imp_of_mem ?_ hs
  intro a b ha hb hle hbnone
  have hkb : sortKey b = [] := by simp [sortKey, hbnone]
  rw [hkb] at hle
  have hka : sortKey a = [] := eq_nil_of_strLe_nil _ hle
  cases hda : a.date with
  | none => rfl
  | some d =>
    have hd : d = [] := by simpa [sortKey, hda] using hka
    subst hd
    exact absurd hda (h a (mem_pySortByDate _ ha))

/-! ### Facts about the feed projection -/

theorem pyReplaceZ_no_Z : ∀ d : List Char, 'Z' ∉ d → pyReplaceZ d = d := by
  intro d
  induction d with
  | nil => intro _; rfl
  | cons c cs ih =>
    intro h
    have hc : c ≠ 'Z' := fun hc => h (hc ▸ List.mem_cons_self c cs)
    have hcs : 'Z' ∉ cs := fun hm => h (List.mem_cons_of_mem c hm)
    simp only [pyReplaceZ, List.flatMap_cons] at *
    rw [if_neg hc, ih hcs]
    rfl

theorem pyReplaceZ_trailing_Z (d' : List Char) (h : 'Z' ∉ d') :
    pyReplaceZ (d' ++ ['Z']) = d' ++ "+00:00".toList := by
  rw [pyReplaceZ, List.flatMap_append]
  rw [show (d'.flatMap fun c => if c = 'Z' then "+00:00".toList else [c]) = pyReplaceZ d' from rfl]
  rw [pyReplaceZ_no_Z d' h]
  rfl

/-! ### Claim theorems -/

/-- C1: for every document (given as its list of lines) and every blame
range list, the number of `VersionRecord` entries returned by
`parse_changelog` equals the number of lines matching the version-header
pattern. -/
theorem claim_C1_record_count (lines : List (List Char)) (ranges : List BlameRange) :
    (parse_changelog lines ranges).length
      = (lines.filter fun l => (versionMatch l).isSome).length := by
  rw [parse_changelog_eq_segRef, List.length_map, segRef_length]
  exact enumFrom_filter_header_length lines 0

/-- C3: the line-attribution index maps position `i` to the `{date, oid}`
payload of the *last* range in iteration order whose zero-based converted
span `[startingLine - 1, endingLine)` contains `i` (the first such range of
the reversed list), and to absent when no range covers `i`. -/
theorem claim_C3_last_write_wins (ranges : List BlameRange) (i : Int) :
    buildLineDataMap ranges i = (ranges.reverse.find? (coversAt i)).map (·.commit) ∧
    ((∀ r ∈ ranges, coversAt i r = false) → buildLineDataMap ranges i = none) := by
  refine ⟨buildLineDataMap_eq_find ranges i, fun h => ?_⟩
  rw [buildLineDataMap_eq_find ranges i, List.find?_eq_none.mpr ?_]
  · rfl
  · intro r hr
    rw [h r (List.mem_reverse.mp hr)]
    simp

/-- C3 witness: on a two-range list covering lines 1-2 and 3-4, position 3
(zero-based) is attributed to the second range, and position 7 to none. -/
theorem claim_C3_witness :
    buildLineDataMap
        [⟨1, 2, ⟨"d1".toList, "o1".toList⟩⟩, ⟨3, 4, ⟨"d2".toList, "o2".toList⟩⟩] 3
      = some ⟨"d2".toList, "o2".toList⟩ ∧
    buildLineDataMap
        [⟨1, 2, ⟨"d1".toList, "o1".toList⟩⟩, ⟨3, 4, ⟨"d2".toList, "o2".toList⟩⟩] 7
      = none := by
  constructor
  · rw [(claim_C3_last_write_wins _ 3).1]
    decide
  · exact (claim_C3_last_write_wins _ 7).2 (by decide)

/-- C10: index construction is total over arbitrary integer bounds, and a
degenerate range (`endingLine < startingLine`) writes no position at all:
deleting it from the range list leaves the index unchanged, and on its own
it attributes no position. -/
theorem claim_C10_degenerate_range (rs1 rs2 : List BlameRange) (r : BlameRange) (i : Int)
    (h : r.endingLine < r.startingLine) :
    buildLineDataMap (rs1 ++ r :: rs2) i = buildLineDataMap (rs1 ++ rs2) i ∧
    buildLineDataMap [r] i = none := by
  have hc := coversAt_degenerate h i
  constructor
  · rw [buildLineDataMap_eq_find, buildLineDataMap_eq_find, List.reverse_append,
      List.reverse_cons, List.reverse_append]
    rw [List.append_assoc, List.find?_append, List.find?_append, List.find?_append]
    have h1 : List.find? (coversAt i) [r] = none := by
      rw [List.find?_eq_none]
      intro x hx
      rw [List.mem_singleton.mp hx, hc]
      simp
    rw [h1, Option.none_or]
  · rw [buildLineDataMap_eq_find]
    have h1 : List.find? (coversAt i) [r].reverse = none := by
      rw [List.find?_eq_none]
      intro x hx
      rw [List.mem_reverse.mp hx |> List.mem_singleton.mp, hc]
      simp
    rw [h1]
    rfl

/-- C10 witness: the degenerate range `[5, 2]` writes nothing. -/
theorem claim_C10_witness :
    ((2 : Int) < 5) ∧
    buildLineDataMap [⟨5, 2, ⟨"d".toList, "o".toList⟩⟩] 3 = buildLineDataMap [] 3 ∧
    buildLineDataMap [⟨5, 2, ⟨"d".toList, "o".toList⟩⟩] 3 = none := by
  refine ⟨by decide, ?_, ?_⟩
  · exact (claim_C10_degenerate_range [] [] ⟨5, 2, ⟨"d".toList, "o".toList⟩⟩ 3 (by decide)).1
  · exact (claim_C10_degenerate_range [] [] ⟨5, 2, ⟨"d".toList, "o".toList⟩⟩ 3 (by decide)).2

/-- C2 counterexample: the code's header test accepts `##` followed by a
tab (`\t` matches the regex class `\s`), although the line does not consist
of `##` followed by one or more *space* characters; so "one or more
spaces" read literally does not characterize the code's pattern. -/
theorem claim_C2_counterexample :
    versionMatch ("##\t1.2.3".toList) = some ("1.2.3".toList) ∧
      ¬ isHeaderPattern (fun c => c == ' ') ("##\t1.2.3".toList) := by
  constructor
  · decide
  · intro h
    obtain ⟨ws, v, rest, heq, hne, hall, _⟩ := h
    have hlist : "##\t1.2.3".toList = '#' :: '#' :: '\t' :: "1.2.3".toList := rfl
    rw [hlist] at heq
    cases ws with
    | nil => exact hne rfl
    | cons c ws' =>
      rw [List.cons_append] at heq
      simp only [List.cons.injEq] at heq
      obtain ⟨-, -, hc, -⟩ := heq
      have hsp : (c == ' ') = true := List.all_eq_true.mp hall c (List.mem_cons_self c ws')
      rw [← hc] at hsp
      exact absurd hsp (by decide)

/-- C2 (amended): a line is treated as a version header iff it starts with
exactly `##`, then one or more *whitespace* characters (the regex class
`\s`, which includes tab, not only spaces), then a version number of the
shape `\d+.\d+.\d+`; when it matches, the matched group is exactly the
version identifier (it has the three-digit-run shape, the trailing text of
the line past the group is discarded, and segmenting the single-line
document yields a record whose version field is the group). -/
theorem claim_C2_header_pattern (line v : List Char) :
    ((versionMatch line).isSome = true ↔ isHeaderPattern pySpace line) ∧
    (versionMatch line = some v →
      versionShape v ∧
      (∃ ws rest, line = '#' :: '#' :: (ws ++ (v ++ rest)) ∧
        ws ≠ [] ∧ ws.all pySpace = true) ∧
      parse_changelog [line] [] = [⟨v, none, none, []⟩]) := by
  refine ⟨versionMatch_isSome_iff_pattern line, fun h => ?_⟩
  obtain ⟨ws, rest, hl, hws, hall, hshape⟩ := versionMatch_eq_some h
  refine ⟨hshape, ⟨ws, rest, hl, hws, hall⟩, ?_⟩
  rw [parse_changelog_eq_segRef]
  have henum : ([line] : List (List Char)).enum = [(0, line)] := rfl
  rw [henum, segRef_cons_some (p := (0, line)) h]
  simp [segRef, recOf, buildLineDataMap, pyStrip, joinNL, List.intercalate]

/-- C2 witness: `## 1.2.3x` is a header; its matched group is `1.2.3`, of
version shape, and the single-line parse produces exactly that version. -/
theorem claim_C2_witness :
    ((versionMatch ("## 1.2.3x".toList)).isSome = true
        ↔ isHeaderPattern pySpace ("## 1.2.3x".toList)) ∧
    versionShape ("1.2.3".toList) ∧
    parse_changelog ["## 1.2.3x".toList] []
      = [⟨"1.2.3".toList, none, none, []⟩] := by
  have h := claim_C2_header_pattern ("## 1.2.3x".toList) ("1.2.3".toList)
  have hm : versionMatch ("## 1.2.3x".toList) = some ("1.2.3".toList) := by decide
  exact ⟨h.1, (h.2 hm).1, (h.2 hm).2.2⟩

/-- C4: the `date`/`oid` fields of the records produced by
`parse_changelog` are, position by position, exactly the attribution-index
lookups at the zero-based positions of the header lines that introduced
them (absent when the lookup finds nothing) — in particular they are never
derived from the records' body lines. -/
theorem claim_C4_header_attribution (lines : List (List Char)) (ranges : List BlameRange) :
    (parse_changelog lines ranges).map (fun r => (r.date, r.oid))
      = (lines.enum.filter fun q => (versionMatch q.2).isSome).map
          (fun q => ((buildLineDataMap ranges q.1).map (·.date),
                     (buildLineDataMap ranges q.1).map (·.oid))) := by
  rw [parse_changelog_eq_segRef, List.map_map]
  have h1 : ((fun r : VersionRecord => (r.date, r.oid)) ∘ recOf (buildLineDataMap ranges))
      = (fun q : Nat × List Char =>
          ((buildLineDataMap ranges q.1).map (·.date),
           (buildLineDataMap ranges q.1).map (·.oid)))
        ∘ (fun s : (Nat × List Char) × List (List Char) => s.1) :=
    funext fun s => rfl
  rw [h1, ← List.map_map, segRef_heads, List.map_map]
  congr 1

/-- C8: the segmenter is sticky.  (a) Every non-header line before the
first header contributes to no record: parsing `pre ++ rest` (with the
attribution ranges shifted past the discarded prefix) equals parsing
`rest` alone.  (b) Once a version is active, a non-header line is appended
to the description of the record under construction.  (c) Once any header
has been seen, the segmenter never returns to the discard-everything
state: an active current version stays active through any remaining
lines. -/
theorem claim_C8_sticky_state_machine :
    (∀ (pre rest : List (List Char)) (ranges : List BlameRange),
      (∀ l ∈ pre, versionMatch l = none) →
      parse_changelog (pre ++ rest) (shiftRanges pre.length ranges)
        = parse_changelog rest ranges) ∧
    (∀ (m : Int → Option LineInfo) (st : ParseState) (p : Nat × List Char)
        (ps : List (Nat × List Char)),
      pyTruthy st.current_version = true → versionMatch p.2 = none →
      runFrom m st (p :: ps)
        = runFrom m { st with current_desc := st.current_desc ++ [p.2] } ps) ∧
    (∀ (m : Int → Option LineInfo) (st : ParseState) (ps : List (Nat × List Char)),
      pyTruthy st.current_version = true →
      pyTruthy (runFrom m st ps).current_version = true) := by
  refine ⟨parse_changelog_discard_preamble, ?_, fun m st ps h => runFrom_sticky m ps st h⟩
  intro m st p ps htr hm
  rw [runFrom, List.foldl_cons]
  have hstep : parseStep m st p = { st with current_desc := st.current_desc ++ [p.2] } := by
    simp [parseStep, hm, htr]
  rw [hstep]
  rfl

/-- C8 witness: a leading title line is discarded (parsing it before a
header changes nothing), appending works from an active state, and the
state stays active. -/
theorem claim_C8_witness :
    parse_changelog ["# Changelog".toList] [] = [] ∧
    parse_changelog (["# Changelog".toList] ++ ["## 1.0.0".toList]) (shiftRanges 1 [])
      = parse_changelog ["## 1.0.0".toList] [] ∧
    runFrom (fun _ => none) ⟨[], some "1.0.0".toList, [], none, none⟩ [(1, "body".toList)]
      = runFrom (fun _ => none) ⟨[], some "1.0.0".toList, ["body".toList], none, none⟩ [] ∧
    pyTruthy (runFrom (fun _ => none) ⟨[], some "1.0.0".toList, [], none, none⟩
      [(1, "body".toList), (2, "more".toList)]).current_version = true := by
  refine ⟨by decide, ?_, ?_, ?_⟩
  · exact claim_C8_sticky_state_machine.1 ["# Changelog".toList] ["## 1.0.0".toList] []
      (by decide)
  · exact claim_C8_sticky_state_machine.2.1 (fun _ => none)
      ⟨[], some "1.0.0".toList, [], none, none⟩ (1, "body".toList) [] (by decide) (by decide)
  · exact claim_C8_sticky_state_machine.2.2 (fun _ => none)
      ⟨[], some "1.0.0".toList, [], none, none⟩ [(1, "body".toList), (2, "more".toList)]
      (by decide)

/-- C9: in every record produced by `parse_changelog`, the `date` and
`oid` fields are set together from the same index lookup: one is absent
exactly when the other is. -/
theorem claim_C9_date_oid_together (lines : List (List Char)) (ranges : List BlameRange)
    (r : VersionRecord) (hr : r ∈ parse_changelog lines ranges) :
    (r.date.isSome = r.oid.isSome) ∧ (r.date = none ↔ r.oid = none) := by
  rw [parse_changelog_eq_segRef] at hr
  obtain ⟨s, hs, rfl⟩ := List.mem_map.mp hr
  cases hm2 : buildLineDataMap ranges s.1.1 <;> simp [recOf, hm2]

/-- C9 witness: a record with attribution has both fields, a record
without has neither. -/
theorem claim_C9_witness :
    ((⟨"1.0.0".toList, some "d".toList, some "o".toList, []⟩ : VersionRecord).date.isSome
      = (⟨"1.0.0".toList, some "d".toList, some "o".toList, []⟩ : VersionRecord).oid.isSome) ∧
    (((⟨"1.0.0".toList, some "d".toList, some "o".toList, []⟩ : VersionRecord).date = none)
      ↔ ((⟨"1.0.0".toList, some "d".toList, some "o".toList, []⟩ : VersionRecord).oid = none)) := by
  exact claim_C9_date_oid_together ["## 1.0.0".toList]
    [⟨1, 1, ⟨"d".toList, "o".toList⟩⟩]
    ⟨"1.0.0".toList, some "d".toList, some "o".toList, []⟩ (by decide)

theorem enumFrom_map_snd_lambda (n : Nat) (l : List (List Char)) :
    (List.enumFrom n l).map (fun p => p.2) = l := by
  induction l generalizing n with
  | nil => rfl
  | cons x xs ih => rw [List.enumFrom_cons, List.map_cons, ih]

theorem getElem?_append_cons_cons {α : Type} (A : List α) (x y : α) (B : List α) :
    (A ++ x :: y :: B)[A.length]? = some x ∧ (A ++ x :: y :: B)[A.length + 1]? = some y := by
  constructor
  · rw [List.getElem?_append_right (Nat.le_refl _), Nat.sub_self]
    rfl
  · rw [List.getElem?_append_right (by omega : A.length ≤ A.length + 1),
      show A.length + 1 - A.length = 1 by omega]
    simp

/-- C5 counterexample: on the document `## 1.0.1 / Fix A / <blank> / ## 1.0.0`
the first record's description is `Fix A` — the trailing blank body line was
removed by `.strip()` — so concatenating the first record's description
lines with the next header line gives `[Fix A, ## 1.0.0]`, which does not
reconstruct the source block `[Fix A, <blank>, ## 1.0.0]`; exact
reconstruction "modulo the header's trailing text" alone is impossible. -/
theorem claim_C5_counterexample :
    parse_changelog ["## 1.0.1".toList, "Fix A".toList, "".toList, "## 1.0.0".toList] []
        = [⟨"1.0.1".toList, none, none, "Fix A".toList⟩,
           ⟨"1.0.0".toList, none, none, []⟩] ∧
    (List.splitOn '\n' "Fix A".toList) ++ ["## 1.0.0".toList]
        ≠ ["Fix A".toList, "".toList, "## 1.0.0".toList] := by
  constructor
  · decide
  · decide

/-- C5 (amended): the round trip holds modulo trimming.  For any two
consecutive headers, the record introduced by the first header has as its
description exactly the `strip` of the newline-join of the contiguous block
of source lines strictly between the two headers, and the next record is
introduced by the next header line with its matched group as version (the
header's own trailing text being discarded).  Reconstruction of the block
from the description is exact only up to the leading/trailing whitespace
removed by `.strip()`. -/
theorem claim_C5_block_structure (ranges : List BlameRange)
    (pre body rest : List (List Char)) (l1 l2 v1 v2 : List Char)
    (hh1 : versionMatch l1 = some v1) (hh2 : versionMatch l2 = some v2)
    (hbody : ∀ l ∈ body, versionMatch l = none) :
    (parse_changelog (pre ++ l1 :: (body ++ l2 :: rest)) ranges)[
        (pre.filter fun l => (versionMatch l).isSome).length]?
      = some ⟨v1, (buildLineDataMap ranges pre.length).map (·.date),
          (buildLineDataMap ranges pre.length).map (·.oid), pyStrip (joinNL body)⟩ ∧
    ((parse_changelog (pre ++ l1 :: (body ++ l2 :: rest)) ranges)[
        (pre.filter fun l => (versionMatch l).isSome).length + 1]?).map (·.version)
      = some v2 := by
  have hbe : ∀ p ∈ List.enumFrom (pre.length + 1) body, nonHeader p = true := by
    intro p hp
    have hmem : p.2 ∈ body := by
      rw [← List.enumFrom_map_snd (pre.length + 1) body]
      exact List.mem_map_of_mem _ hp
    simp [nonHeader, hbody p.2 hmem]
  have hnh2 : nonHeader (pre.length + 1 + body.length, l2) = false :=
    nonHeader_false_of_some hh2
  rw [parse_changelog_eq_segRef, List.enum_append, List.enumFrom_cons, List.enumFrom_append,
    List.enumFrom_cons,
    segRef_append_header _ _ _ _ (by simp [hh1]),
    segRef_cons_some (p := (pre.length, l1)) hh1,
    takeWhile_append_all _ hbe, dropWhile_append_all _ hbe,
    List.takeWhile_cons, List.dropWhile_cons]
  simp only [hnh2, Bool.false_eq_true, if_false, List.append_nil]
  rw [enumFrom_map_snd_lambda,
    segRef_cons_some (p := (pre.length + 1 + body.length, l2)) hh2,
    List.map_append, List.map_cons, List.map_cons]
  have hlen : ((segRef pre.enum).map (recOf (buildLineDataMap ranges))).length
      = (pre.filter fun l => (versionMatch l).isSome).length := by
    rw [List.length_map, segRef_length]
    exact enumFrom_filter_header_length pre 0
  rw [← hlen]
  constructor
  · rw [(getElem?_append_cons_cons _ _ _ _).1]
    simp [recOf]
  · rw [(getElem?_append_cons_cons _ _ _ _).2]
    simp [recOf]

/-- C5 witness: a concrete two-version document. -/
theorem claim_C5_witness :
    (parse_changelog ["## 1.0.1".toList, "x".toList, "## 1.0.0".toList] [])[0]?
      = some ⟨"1.0.1".toList, none, none, pyStrip (joinNL ["x".toList])⟩ ∧
    ((parse_changelog ["## 1.0.1".toList, "x".toList, "## 1.0.0".toList] [])[1]?).map
        (·.version) = some "1.0.0".toList := by
  have h := claim_C5_block_structure [] [] ["x".toList] []
    "## 1.0.1".toList "## 1.0.0".toList "1.0.1".toList "1.0.0".toList
    (by decide) (by decide) (by decide)
  exact h

/-- C6: the sort applied before projection (`versions.sort(key=lambda x:
x['date'] or "")`) orders records ascending by their date key, is stable
(records of equal key keep their segmentation order: filtering the output
by any key value gives the same list as filtering the input), and treats
an absent date as the empty string, so that — as long as no present date
is itself the empty string, which an ISO-8601 date never is — records with
absent dates come before every record with a present date. -/
theorem claim_C6_sort (vs : List VersionRecord) (k : List Char) :
    List.Pairwise (fun a b => strLe (sortKey a) (sortKey b) = true) (pySortByDate vs) ∧
    (pySortByDate vs).filter (fun r => decide (sortKey r = k))
        = vs.filter (fun r => decide (sortKey r = k)) ∧
    ((∀ r ∈ vs, r.date ≠ some ([] : List Char)) →
      List.Pairwise (fun a b => b.date = none → a.date = none) (pySortByDate vs)) :=
  ⟨pySortByDate_pairwise vs, pySortByDate_filter k vs, pySortByDate_absent_first vs⟩

/-- C6 witness: a three-record list with one absent date. -/
theorem claim_C6_witness :
    List.Pairwise (fun a b => strLe (sortKey a) (sortKey b) = true)
      (pySortByDate
        [⟨"2".toList, some "2024-01-02".toList, none, []⟩,
         ⟨"1".toList, none, none, []⟩,
         ⟨"3".toList, some "2024-01-01".toList, none, []⟩]) ∧
    (pySortByDate
        [⟨"2".toList, some "2024-01-02".toList, none, []⟩,
         ⟨"1".toList, none, none, []⟩,
         ⟨"3".toList, some "2024-01-01".toList, none, []⟩]).filter
        (fun r => decide (sortKey r = []))
      = [⟨"2".toList, some "2024-01-02".toList, none, []⟩,
         ⟨"1".toList, none, none, []⟩,
         ⟨"3".toList, some "2024-01-01".toList, none, []⟩].filter
        (fun r => decide (sortKey r = [])) ∧
    List.Pairwise (fun a b => b.date = none → a.date = none)
      (pySortByDate
        [⟨"2".toList, some "2024-01-02".toList, none, []⟩,
         ⟨"1".toList, none, none, []⟩,
         ⟨"3".toList, some "2024-01-01".toList, none, []⟩]) := by
  have h := claim_C6_sort
    [⟨"2".toList, some "2024-01-02".toList, none, []⟩,
     ⟨"1".toList, none, none, []⟩,
     ⟨"3".toList, some "2024-01-01".toList, none, []⟩] []
  exact ⟨h.1, h.2.1, h.2.2 (by decide)⟩

/-- C7: for every record whose optional fields are not the (never
ISO-8601-valid, never commit-id-valid) empty string: the projected entry's
link is the commit-pinned permalink when the oid is present and the
release-tag fallback when absent, the guid equals the link and is flagged
as a permalink, the entry has a pubDate iff the record's date is present,
and the string handed to the ISO-8601 parser is the date with its trailing
`Z` replaced by the explicit zero UTC offset `+00:00`. -/
theorem claim_C7_feed_entry (versions : List VersionRecord) (v : VersionRecord)
    (hv : v ∈ versions) (hd : v.date ≠ some ([] : List Char))
    (ho : v.oid ≠ some ([] : List Char)) :
    feedEntryOf v ∈ generate_rss versions ∧
    (∀ o, v.oid = some o → (feedEntryOf v).link = commitLinkUrl o) ∧
    (v.oid = none → (feedEntryOf v).link = fallbackLinkUrl v.version) ∧
    (feedEntryOf v).guid = (feedEntryOf v).link ∧
    (feedEntryOf v).guidIsPermalink = true ∧
    ((feedEntryOf v).pubDate.isSome = v.date.isSome) ∧
    (∀ d d', v.date = some d → d = d' ++ ['Z'] → 'Z' ∉ d' →
      (feedEntryOf v).pubDate = some (d' ++ "+00:00".toList)) := by
  refine ⟨List.mem_map_of_mem feedEntryOf hv, ?_, ?_, rfl, rfl, ?_, ?_⟩
  · intro o hoid
    have hone : o ≠ [] := fun h => ho (by rw [hoid, h])
    simp [feedEntryOf, hoid, pyTruthy, List.isEmpty_eq_false.mpr hone]
  · intro hoid
    simp [feedEntryOf, hoid, pyTruthy]
  · cases hdate : v.date with
    | none => simp [feedEntryOf, hdate, pyTruthy]
    | some d =>
      have hdne : d ≠ [] := fun h => hd (by rw [hdate, h])
      simp [feedEntryOf, hdate, pyTruthy, List.isEmpty_eq_false.mpr hdne]
  · intro d d' hdate hsplit hnoZ
    subst hsplit
    have hdne : d' ++ ['Z'] ≠ [] := by simp
    simp only [feedEntryOf, hdate, pyTruthy, List.isEmpty_eq_false.mpr hdne, Bool.not_false,
      if_pos, Option.getD_some]
    rw [pyReplaceZ_trailing_Z d' hnoZ]

/-- C7 witness: a record with commit attribution and a `Z`-suffixed date,
and a record with neither. -/
theorem claim_C7_witness :
    (feedEntryOf ⟨"1.0.1".toList, some "2024-01-02T03:04:05Z".toList, some "abc".toList,
        "Fix".toList⟩).link
      = commitLinkUrl "abc".toList ∧
    (feedEntryOf ⟨"1.0.1".toList, some "2024-01-02T03:04:05Z".toList, some "abc".toList,
        "Fix".toList⟩).pubDate
      = some ("2024-01-02T03:04:05".toList ++ "+00:00".toList) ∧
    (feedEntryOf ⟨"1.0.0".toList, none, none, []⟩).link = fallbackLinkUrl "1.0.0".toList ∧
    (feedEntryOf ⟨"1.0.0".toList, none, none, []⟩).pubDate.isSome = false := by
  have h1 := claim_C7_feed_entry
    [⟨"1.0.1".toList, some "2024-01-02T03:04:05Z".toList, some "abc".toList, "Fix".toList⟩]
    ⟨"1.0.1".toList, some "2024-01-02T03:04:05Z".toList, some "abc".toList, "Fix".toList⟩
    (by decide) (by decide) (by decide)
  have h2 := claim_C7_feed_entry
    [⟨"1.0.0".toList, none, none, []⟩]
    ⟨"1.0.0".toList, none, none, []⟩ (by decide) (by decide) (by decide)
  refine ⟨h1.2.1 "abc".toList rfl, ?_, h2.2.2.1 rfl, ?_⟩
  · exact h1.2.2.2.2.2.2 "2024-01-02T03:04:05Z".toList "2024-01-02T03:04:05".toList
      rfl (by decide) (by decide)
  · rw [h2.2.2.2.2.2.1]
    decide
